import Mathlib

/-!
Verification of the capture-and-forward event loop of `src/kanata/macos.rs`
(`Kanata::event_loop`).

The embedding models one iteration of the inner event-processing loop
(lines 40–113 of the source) as a pure step function `loopStep` over the
process state (`PRESSED_KEYS`, modelled as a `Finset Nat`), fed by an
`IterInput` record that supplies the results of the external calls the
iteration makes (`is_sink_ready`, `kb.read`, `kbd_out.write`,
`tx.try_send`).  The outer recovery loop (lines 38–151) is modelled by
`outerRun`, which consumes a finite script of environment responses and
emits a trace of observable actions, so that the temporal ordering claims
about release / wait / settle / regrab can be stated over traces.

`KeyEvent::try_from` is conversion code outside this file's source; its
result is carried as an oracle field `conv` on the raw event.
-/

namespace Kanata

/-- Normalized key event values (spec §3: `KeyValue ∈ {Press, Release, Repeat}`).
The source's wildcard match arm at line 110 covers `Repeat` here. -/
inductive KeyValue
  | Press
  | Release
  | Repeat
deriving DecidableEq

/-- Normalized key event: `{ code, value }`. -/
structure KeyEvent where
  code : Nat
  value : KeyValue
deriving DecidableEq

/-- Raw hardware event.  `data` is the opaque payload written verbatim to the
output sink; `conv` is the (externally computed) result of
`KeyEvent::try_from(event)`, `none` when conversion fails. -/
structure RawEvent where
  data : Nat
  conv : Option KeyEvent
deriving DecidableEq

/-- The IO error kinds the loop distinguishes (`std::io::ErrorKind`):
`UnexpectedEof` on reads and `NotConnected` on writes are recognized
recovery signals; everything else is `otherKind`. -/
inductive IOErrorKind
  | unexpectedEof
  | notConnected
  | otherKind
deriving DecidableEq

/-- Result of `kb.read()`. -/
inductive ReadResult
  | ok (ev : RawEvent)
  | err (k : IOErrorKind)
deriving DecidableEq

/-- Result of `kanata.kbd_out.write(event)`. -/
inductive WriteResult
  | ok
  | err (k : IOErrorKind)
deriving DecidableEq

/-- Result of `tx.try_send(key_event)` on the bounded downstream channel. -/
inductive SendResult
  | ok
  | full
  | disconnected
deriving DecidableEq

/-- Environment responses consumed by one iteration of the inner loop:
the liveness probe, the device read, the (at most one) sink write and the
(at most one) downstream send the iteration may perform. -/
structure IterInput where
  sink_ready : Bool
  read : ReadResult
  write : WriteResult
  send : SendResult
deriving DecidableEq

/-- How an iteration of the inner loop ends: fall through to the next
iteration (`continue` / loop bottom), `break b` out of the inner loop with
the recovery flag `b`, or an early `return Err` of the whole function. -/
inductive IterOutcome
  | next
  | brk (needs_recovery : Bool)
  | fatal (msg : String)
deriving DecidableEq

/-- Observable result of one iteration: the new `PRESSED_KEYS`, the raw
event written to the output sink (if any), the key event sent on the
downstream channel (if any), and the control-flow outcome. -/
structure StepResult where
  pressed : Finset Nat
  sink_write : Option RawEvent
  sent : Option KeyEvent
  outcome : IterOutcome
deriving DecidableEq

/-- One iteration of the inner event-processing loop of `event_loop`
(`src/kanata/macos.rs` lines 40–113), as a pure function of the current
`PRESSED_KEYS` set and the environment's responses.

Line map: the `sink_ready` check is lines 42–45; the read and its error
classification lines 47–55; the conversion failure passthrough write lines
57–73; the hardware-repeat drop lines 77–79; the unmapped passthrough
write lines 81–94; the press/release dedup lines 98–111; the downstream
send line 112.  `check_for_exit` (line 75) is an external side channel
with no effect on this state and is not modelled. -/
def loopStep (allow_hardware_repeat : Bool) (mapped : Finset Nat)
    (pressed : Finset Nat) (inp : IterInput) : StepResult :=
  if !inp.sink_ready then
    ⟨pressed, none, none, .brk true⟩
  else
    match inp.read with
    | .err k =>
      if k = IOErrorKind.unexpectedEof then ⟨pressed, none, none, .brk true⟩
      else ⟨pressed, none, none, .fatal "failed read"⟩
    | .ok event =>
      match event.conv with
      | none =>
        match inp.write with
        | .ok => ⟨pressed, some event, none, .next⟩
        | .err k =>
          if k = IOErrorKind.notConnected then ⟨pressed, none, none, .brk true⟩
          else ⟨pressed, none, none, .fatal "failed write"⟩
      | some key_event =>
        if key_event.value = KeyValue.Repeat ∧ allow_hardware_repeat = false then
          ⟨pressed, none, none, .next⟩
        else if key_event.code ∉ mapped then
          match inp.write with
          | .ok => ⟨pressed, some event, none, .next⟩
          | .err k =>
            if k = IOErrorKind.notConnected then ⟨pressed, none, none, .brk true⟩
            else ⟨pressed, none, none, .fatal "failed write"⟩
        else
          let dedup : Finset Nat × KeyValue :=
            match key_event.value with
            | .Release => (pressed.erase key_event.code, key_event.value)
            | .Press =>
              if key_event.code ∈ pressed then (pressed, KeyValue.Repeat)
              else (insert key_event.code pressed, key_event.value)
            | _ => (pressed, key_event.value)
          match inp.send with
          | .ok => ⟨dedup.1, none, some ⟨key_event.code, dedup.2⟩, .next⟩
          | _ => ⟨dedup.1, none, none, .fatal "send failed"⟩

example :
    loopStep true {1} ∅ ⟨true, .ok ⟨0, some ⟨1, .Press⟩⟩, .ok, .ok⟩ =
      ⟨{1}, none, some ⟨1, .Press⟩, .next⟩ := by decide

example :
    loopStep true {1} {1} ⟨true, .ok ⟨0, some ⟨1, .Press⟩⟩, .ok, .ok⟩ =
      ⟨{1}, none, some ⟨1, .Repeat⟩, .next⟩ := by decide

example :
    loopStep false {1} ∅ ⟨true, .ok ⟨0, some ⟨1, .Repeat⟩⟩, .ok, .ok⟩ =
      ⟨∅, none, none, .next⟩ := by decide

example :
    loopStep true ∅ ∅ ⟨true, .ok ⟨9, some ⟨1, .Press⟩⟩, .ok, .ok⟩ =
      ⟨∅, some ⟨9, some ⟨1, .Press⟩⟩, none, .next⟩ := by decide

example :
    loopStep true ∅ ∅ ⟨false, .ok ⟨9, none⟩, .ok, .ok⟩ =
      ⟨∅, none, none, .brk true⟩ := by decide

/-- Concrete input refuting claim C1: an event whose code is unmapped, with
value `Repeat` and hardware-repeat forwarding disabled. -/
def c1Raw : RawEvent := ⟨7, some ⟨1, KeyValue.Repeat⟩⟩

/-- Environment responses for the C1 counterexample: probe ready, read
succeeds with `c1Raw`, write and send would succeed. -/
def c1Inp : IterInput := ⟨true, .ok c1Raw, .ok, .ok⟩

/-- C1 counterexample: with hardware-repeat forwarding disabled, a
successfully read and converted event whose code `1` is not in the mapped
set and whose value is `Repeat` is processed by the iteration (outcome
`next`) but is NOT written to the output sink — refuting the claim that
every unmapped event, including Repeat-valued ones under disabled
hardware-repeat forwarding, is written to the sink.  (The repeat filter at
line 77 runs before the mapped-keys lookup at line 81.) -/
theorem unmapped_forward_claim_cex :
    (1 : Nat) ∉ (∅ : Finset Nat) ∧
    (loopStep false ∅ ∅ c1Inp).outcome = IterOutcome.next ∧
    ¬ (loopStep false ∅ ∅ c1Inp).sink_write = some c1Raw ∧
    (loopStep false ∅ ∅ c1Inp).sink_write = none := by decide

/-- C1 amended: a processed event whose code is not in the mapped set and
which is not dropped by the hardware-repeat filter (value `Repeat` with
forwarding disabled) is never sent downstream, leaves `PRESSED_KEYS`
unchanged, and — when the sink write succeeds — is written to the output
sink as the unmodified raw event. -/
theorem unmapped_forward_amended (ahr : Bool) (mapped pressed : Finset Nat)
    (inp : IterInput) (ev : RawEvent) (ke : KeyEvent)
    (hready : inp.sink_ready = true) (hread : inp.read = ReadResult.ok ev)
    (hconv : ev.conv = some ke)
    (hdrop : ¬ (ke.value = KeyValue.Repeat ∧ ahr = false))
    (hmap : ke.code ∉ mapped) :
    (loopStep ahr mapped pressed inp).sent = none ∧
    (loopStep ahr mapped pressed inp).pressed = pressed ∧
    (inp.write = WriteResult.ok →
      (loopStep ahr mapped pressed inp).sink_write = some ev) := by
  rcases inp with ⟨sr, rd, wr, sd⟩
  cases hready
  simp only [IterInput.read] at hread
  cases hread
  cases wr with
  | ok => simp [loopStep, hconv, hdrop, hmap]
  | err k =>
    by_cases hk : k = IOErrorKind.notConnected <;>
      simp [loopStep, hconv, hdrop, hmap, hk]

/-- Witness for `unmapped_forward_amended` at a concrete input: a mapped-set
not containing code `2`, a Press event on code `2`, all calls succeeding. -/
theorem unmapped_forward_amended_witness :
    (loopStep true ∅ ∅ ⟨true, .ok ⟨5, some ⟨2, .Press⟩⟩, .ok, .ok⟩).sent = none ∧
    (loopStep true ∅ ∅ ⟨true, .ok ⟨5, some ⟨2, .Press⟩⟩, .ok, .ok⟩).pressed = ∅ ∧
    ((⟨true, .ok ⟨5, some ⟨2, .Press⟩⟩, .ok, .ok⟩ : IterInput).write = WriteResult.ok →
      (loopStep true ∅ ∅ ⟨true, .ok ⟨5, some ⟨2, .Press⟩⟩, .ok, .ok⟩).sink_write =
        some ⟨5, some ⟨2, .Press⟩⟩) :=
  unmapped_forward_amended true ∅ ∅ _ ⟨5, some ⟨2, .Press⟩⟩ ⟨2, .Press⟩
    rfl rfl rfl (by decide) (by decide)

/-- C6: a successfully converted event with value `Repeat` is silently
dropped when hardware-repeat forwarding is disabled: nothing is written to
the sink, nothing is sent downstream, `PRESSED_KEYS` is untouched, and the
iteration just continues. -/
theorem repeat_dropped (mapped pressed : Finset Nat) (inp : IterInput)
    (ev : RawEvent) (ke : KeyEvent)
    (hready : inp.sink_ready = true) (hread : inp.read = ReadResult.ok ev)
    (hconv : ev.conv = some ke) (hval : ke.value = KeyValue.Repeat) :
    loopStep false mapped pressed inp = ⟨pressed, none, none, .next⟩ := by
  rcases inp with ⟨sr, rd, wr, sd⟩
  cases hready
  simp only [IterInput.read] at hread
  cases hread
  simp [loopStep, hconv, hval]

/-- Witness for `repeat_dropped` at a concrete input. -/
theorem repeat_dropped_witness :
    loopStep false {1} {1} ⟨true, .ok ⟨3, some ⟨1, .Repeat⟩⟩, .ok, .ok⟩ =
      ⟨{1}, none, none, .next⟩ :=
  repeat_dropped {1} {1} _ ⟨3, some ⟨1, .Repeat⟩⟩ ⟨1, .Repeat⟩ rfl rfl rfl rfl

/-- C8: processing a mapped `Release` event removes its code from
`PRESSED_KEYS` unconditionally — afterwards the code is not in the set
regardless of prior state, and when the code was already absent the set is
unchanged (removal is idempotent). -/
theorem release_removes (ahr : Bool) (mapped pressed : Finset Nat)
    (inp : IterInput) (ev : RawEvent) (ke : KeyEvent)
    (hready : inp.sink_ready = true) (hread : inp.read = ReadResult.ok ev)
    (hconv : ev.conv = some ke) (hval : ke.value = KeyValue.Release)
    (hmap : ke.code ∈ mapped) :
    (loopStep ahr mapped pressed inp).pressed = pressed.erase ke.code ∧
    ke.code ∉ (loopStep ahr mapped pressed inp).pressed ∧
    (ke.code ∉ pressed → (loopStep ahr mapped pressed inp).pressed = pressed) := by
  rcases inp with ⟨sr, rd, wr, sd⟩
  cases hready
  simp only [IterInput.read] at hread
  cases hread
  have hpressed : (loopStep ahr mapped pressed ⟨true, .ok ev, wr, sd⟩).pressed =
      pressed.erase ke.code := by
    simp only [loopStep, Bool.not_true, Bool.false_eq_true, if_false, hconv, hval]
    have hnd : ¬ (KeyValue.Release = KeyValue.Repeat ∧ ahr = false) := by
      intro h
      exact absurd h.1 (by decide)
    rw [if_neg hnd, if_neg (by simpa using hmap)]
    cases sd <;> simp
  refine ⟨hpressed, ?_, ?_⟩
  · rw [hpressed]
    exact Finset.not_mem_erase _ _
  · intro habs
    rw [hpressed]
    exact Finset.erase_eq_of_not_mem habs

/-- Witness for `release_removes` at a concrete input: releasing mapped
code `1` while `PRESSED_KEYS = {1, 2}`. -/
theorem release_removes_witness :
    (loopStep true {1} {1, 2} ⟨true, .ok ⟨4, some ⟨1, .Release⟩⟩, .ok, .ok⟩).pressed =
        ({1, 2} : Finset Nat).erase 1 ∧
    (1 : Nat) ∉ (loopStep true {1} {1, 2} ⟨true, .ok ⟨4, some ⟨1, .Release⟩⟩, .ok, .ok⟩).pressed ∧
    ((1 : Nat) ∉ ({1, 2} : Finset Nat) →
      (loopStep true {1} {1, 2} ⟨true, .ok ⟨4, some ⟨1, .Release⟩⟩, .ok, .ok⟩).pressed = {1, 2}) :=
  release_removes true {1} {1, 2} _ ⟨4, some ⟨1, .Release⟩⟩ ⟨1, .Release⟩
    rfl rfl rfl rfl (by decide)

/-- C10: a loop iteration that ends by signaling recovery (`break true`)
leaves `PRESSED_KEYS` unchanged, and `PRESSED_KEYS` can change only when a
successfully converted, non-dropped, mapped `Press` or `Release` event
reaches the dedup step. -/
theorem pressed_frame (ahr : Bool) (mapped pressed : Finset Nat) (inp : IterInput) :
    ((loopStep ahr mapped pressed inp).outcome = IterOutcome.brk true →
      (loopStep ahr mapped pressed inp).pressed = pressed) ∧
    ((loopStep ahr mapped pressed inp).pressed ≠ pressed →
      ∃ ev ke, inp.sink_ready = true ∧ inp.read = ReadResult.ok ev ∧
        ev.conv = some ke ∧ ¬ (ke.value = KeyValue.Repeat ∧ ahr = false) ∧
        ke.code ∈ mapped ∧
        (ke.value = KeyValue.Press ∨ ke.value = KeyValue.Release)) := by
  rcases inp with ⟨sr, rd, wr, sd⟩
  cases sr with
  | false => simp [loopStep]
  | true =>
    cases rd with
    | err k =>
      by_cases hk : k = IOErrorKind.unexpectedEof <;> simp [loopStep, hk]
    | ok ev =>
      cases hconv : ev.conv with
      | none =>
        cases wr with
        | ok => simp [loopStep, hconv]
        | err k =>
          by_cases hk : k = IOErrorKind.notConnected <;> simp [loopStep, hconv, hk]
      | some ke =>
        by_cases hdrop : ke.value = KeyValue.Repeat ∧ ahr = false
        · simp [loopStep, hconv, hdrop]
        · by_cases hmap : ke.code ∈ mapped
          · constructor
            · cases sd <;> simp [loopStep, hconv, hdrop, hmap]
            · intro hne
              refine ⟨ev, ke, rfl, rfl, hconv, hdrop, hmap, ?_⟩
              cases hval : ke.value with
              | Press => exact Or.inl rfl
              | Release => exact Or.inr rfl
              | Repeat =>
                exfalso
                apply hne
                have hahr : ahr = true := by
                  cases ahr with
                  | false => exact absurd ⟨hval, rfl⟩ hdrop
                  | true => rfl
                cases sd <;> simp [loopStep, hconv, hdrop, hmap, hval, hahr]
          · cases wr with
            | ok => simp [loopStep, hconv, hdrop, hmap]
            | err k =>
              by_cases hk : k = IOErrorKind.notConnected <;>
                simp [loopStep, hconv, hdrop, hmap, hk]

/-- Witness for `pressed_frame`, applying it at two concrete inputs: a
probe-not-ready iteration (recovery, frame part) and a fresh mapped Press
(mutation part). -/
theorem pressed_frame_witness :
    (loopStep true {1} {2} ⟨false, .ok ⟨0, none⟩, .ok, .ok⟩).pressed = {2} ∧
    (∃ ev ke, (⟨true, .ok ⟨0, some ⟨1, .Press⟩⟩, .ok, .ok⟩ : IterInput).sink_ready = true ∧
      (⟨true, .ok ⟨0, some ⟨1, .Press⟩⟩, .ok, .ok⟩ : IterInput).read = ReadResult.ok ev ∧
      ev.conv = some ke ∧ ¬ (ke.value = KeyValue.Repeat ∧ true = false) ∧
      ke.code ∈ ({1} : Finset Nat) ∧
      (ke.value = KeyValue.Press ∨ ke.value = KeyValue.Release)) :=
  ⟨(pressed_frame true {1} {2} ⟨false, .ok ⟨0, none⟩, .ok, .ok⟩).1 (by decide),
   (pressed_frame true {1} ∅ ⟨true, .ok ⟨0, some ⟨1, .Press⟩⟩, .ok, .ok⟩).2 (by decide)⟩

/-- An iteration attempts a passthrough write to the output sink exactly
when the read event failed conversion, or converted to an event that
survives the hardware-repeat filter but whose code is unmapped (source
lines 57–73 and 81–94). -/
def attemptsWrite (ahr : Bool) (mapped : Finset Nat) (ev : RawEvent) : Prop :=
  ev.conv = none ∨
    ∃ ke, ev.conv = some ke ∧ ¬ (ke.value = KeyValue.Repeat ∧ ahr = false) ∧
      ke.code ∉ mapped

/-- The recoverable failures named by the spec: liveness probe false, read
error of end-of-stream kind, or a `NotConnected` failure of a write the
iteration actually performs. -/
def recoverCond (ahr : Bool) (mapped : Finset Nat) (inp : IterInput) : Prop :=
  inp.sink_ready = false ∨
    (inp.sink_ready = true ∧ inp.read = ReadResult.err IOErrorKind.unexpectedEof) ∨
    (inp.sink_ready = true ∧
      ∃ ev, inp.read = ReadResult.ok ev ∧ attemptsWrite ahr mapped ev ∧
        inp.write = WriteResult.err IOErrorKind.notConnected)

/-- The fatal failures named by the spec: any read error that is not
end-of-stream, any performed-write error that is not `NotConnected`, or
any downstream channel send failure (full or closed) on a mapped,
non-dropped event. -/
def fatalCond (ahr : Bool) (mapped : Finset Nat) (inp : IterInput) : Prop :=
  (inp.sink_ready = true ∧
    ∃ k, inp.read = ReadResult.err k ∧ k ≠ IOErrorKind.unexpectedEof) ∨
    (inp.sink_ready = true ∧
      ∃ ev k, inp.read = ReadResult.ok ev ∧ attemptsWrite ahr mapped ev ∧
        inp.write = WriteResult.err k ∧ k ≠ IOErrorKind.notConnected) ∨
    (inp.sink_ready = true ∧
      ∃ ev ke, inp.read = ReadResult.ok ev ∧ ev.conv = some ke ∧
        ¬ (ke.value = KeyValue.Repeat ∧ ahr = false) ∧ ke.code ∈ mapped ∧
        inp.send ≠ SendResult.ok)

/-- C5: an iteration signals recovery (`break true`) precisely for the
recoverable failures (probe false, end-of-stream read error, `NotConnected`
write error), and returns a terminating error precisely for every other
read or write error and every downstream send failure. -/
theorem recovery_fatal_classification (ahr : Bool) (mapped pressed : Finset Nat)
    (inp : IterInput) :
    ((loopStep ahr mapped pressed inp).outcome = IterOutcome.brk true ↔
      recoverCond ahr mapped inp) ∧
    ((∃ m, (loopStep ahr mapped pressed inp).outcome = IterOutcome.fatal m) ↔
      fatalCond ahr mapped inp) := by
  rcases inp with ⟨sr, rd, wr, sd⟩
  cases sr with
  | false => simp [loopStep, recoverCond, fatalCond]
  | true =>
    cases rd with
    | err k =>
      by_cases hk : k = IOErrorKind.unexpectedEof <;>
        simp [loopStep, recoverCond, fatalCond, hk]
    | ok ev =>
      cases hconv : ev.conv with
      | none =>
        cases wr with
        | ok => simp [loopStep, recoverCond, fatalCond, attemptsWrite, hconv]
        | err k =>
          by_cases hk : k = IOErrorKind.notConnected <;>
            simp [loopStep, recoverCond, fatalCond, attemptsWrite, hconv, hk]
      | some ke =>
        by_cases hdrop : ke.value = KeyValue.Repeat ∧ ahr = false
        · simp [loopStep, recoverCond, fatalCond, attemptsWrite, hconv, hdrop]
        · by_cases hmap : ke.code ∈ mapped
          · cases sd <;>
              simp [loopStep, recoverCond, fatalCond, attemptsWrite, hconv, hdrop, hmap] <;>
              (intro hv
               cases ahr with
               | false => exact absurd ⟨hv, rfl⟩ hdrop
               | true => rfl)
          · cases wr with
            | ok => simp [loopStep, recoverCond, fatalCond, attemptsWrite, hconv, hdrop, hmap]
            | err k =>
              by_cases hk : k = IOErrorKind.notConnected <;>
                simp [loopStep, recoverCond, fatalCond, attemptsWrite, hconv, hdrop, hmap,
                  hk] <;>
                (intro hv
                 cases ahr with
                 | false => exact absurd ⟨hv, rfl⟩ hdrop
                 | true => rfl)

/-- Environment responses for an iteration in which the probe is ready, the
read returns the given convertible key event, and the sink write and the
downstream send succeed. -/
def inputOfEvent (e : KeyEvent) : IterInput :=
  ⟨true, .ok ⟨0, some e⟩, .ok, .ok⟩

/-- The `PRESSED_KEYS` set after the inner loop processes the given key
events in order, every external call succeeding. -/
def runEvents (ahr : Bool) (mapped : Finset Nat) (pressed : Finset Nat)
    (events : List KeyEvent) : Finset Nat :=
  events.foldl (fun p e => (loopStep ahr mapped p (inputOfEvent e)).pressed) pressed

/-- The key events observed on the downstream channel when the inner loop
processes the given key events in order, every external call succeeding. -/
def sentEvents (ahr : Bool) (mapped : Finset Nat) :
    Finset Nat → List KeyEvent → List KeyEvent
  | _, [] => []
  | pressed, e :: rest =>
    (match (loopStep ahr mapped pressed (inputOfEvent e)).sent with
     | some ke => [ke]
     | none => []) ++
      sentEvents ahr mapped (loopStep ahr mapped pressed (inputOfEvent e)).pressed rest

/-- Claim C2's membership predicate, taken from the spec's words: the most
recent `KeyEvent` observed for the code had value `Press` or `Repeat` and no
`Release` for it has been observed since — equivalently, the last event
carrying this code is a `Press` or `Repeat`. -/
def claimHeld (events : List KeyEvent) (c : Nat) : Bool :=
  match (events.filter (fun e => decide (e.code = c))).getLast? with
  | some e => decide (e.value = KeyValue.Press ∨ e.value = KeyValue.Repeat)
  | none => false

/-- An event is tracked by the dedup step for code `c` when it carries code
`c`, the code is mapped, and the value is `Press` or `Release` (the only
values that mutate `PRESSED_KEYS` at lines 98–111). -/
def dedupTracks (mapped : Finset Nat) (c : Nat) (e : KeyEvent) : Bool :=
  decide (e.code = c) && decide (e.code ∈ mapped) &&
    (decide (e.value = KeyValue.Press) || decide (e.value = KeyValue.Release))

/-- The invariant the code actually maintains: a code is held exactly when
the last tracked (mapped `Press`/`Release`) event for it was a `Press`,
falling back to the initial set when no tracked event occurred. -/
def specHeld (mapped init : Finset Nat) (events : List KeyEvent) (c : Nat) : Bool :=
  match (events.filter (dedupTracks mapped c)).getLast? with
  | some e => decide (e.value = KeyValue.Press)
  | none => decide (c ∈ init)

/-- C2 counterexample: a single `Press` event on an unmapped code.  The
claim's invariant says the code must afterwards be in `PressedKeys` (its
most recent event is a `Press` with no `Release` since), but unmapped
events never reach the dedup step, so `PRESSED_KEYS` stays empty. -/
theorem pressed_invariant_claim_cex :
    claimHeld [⟨1, KeyValue.Press⟩] 1 = true ∧
    (1 : Nat) ∉ runEvents true ∅ ∅ [⟨1, KeyValue.Press⟩] := by decide

/-- Effect of one all-success iteration on `PRESSED_KEYS`, by case analysis
of the per-event algorithm. -/
theorem loopStep_inputOfEvent_pressed (ahr : Bool) (mapped pressed : Finset Nat)
    (e : KeyEvent) :
    (loopStep ahr mapped pressed (inputOfEvent e)).pressed =
      if e.code ∈ mapped then
        match e.value with
        | KeyValue.Release => pressed.erase e.code
        | KeyValue.Press =>
          if e.code ∈ pressed then pressed else insert e.code pressed
        | KeyValue.Repeat => pressed
      else pressed := by
  by_cases hdrop : e.value = KeyValue.Repeat ∧ ahr = false
  · simp [loopStep, inputOfEvent, hdrop, hdrop.1]
  · by_cases hmap : e.code ∈ mapped
    · cases hval : e.value with
      | Press => by_cases hp : e.code ∈ pressed <;> simp [loopStep, inputOfEvent, hdrop, hmap, hval, hp]
      | Release => simp [loopStep, inputOfEvent, hdrop, hmap, hval]
      | Repeat =>
        have hahr : ahr = true := by
          cases ahr with
          | false => exact absurd ⟨hval, rfl⟩ hdrop
          | true => rfl
        simp [loopStep, inputOfEvent, hdrop, hmap, hval, hahr]
    · simp [loopStep, inputOfEvent, hdrop, hmap]

/-- An event the dedup step does not track for code `c` never changes
whether `c` is held. -/
theorem mem_loopStep_pressed_untracked (ahr : Bool) (mapped pressed : Finset Nat)
    (e : KeyEvent) (c : Nat) (h : dedupTracks mapped c e = false) :
    (c ∈ (loopStep ahr mapped pressed (inputOfEvent e)).pressed ↔ c ∈ pressed) := by
  rw [loopStep_inputOfEvent_pressed]
  by_cases hmap : e.code ∈ mapped
  · cases hval : e.value with
    | Press =>
      have hc : ¬ e.code = c := by
        intro hcc
        simp [dedupTracks, hcc, hval, hcc ▸ hmap] at h
      have hc' : ¬ c = e.code := fun hcc => hc hcc.symm
      by_cases hp : e.code ∈ pressed <;> simp [hmap, hval, hp, hc']
    | Release =>
      have hc : ¬ e.code = c := by
        intro hcc
        simp [dedupTracks, hcc, hval, hcc ▸ hmap] at h
      have hc' : ¬ c = e.code := fun hcc => hc hcc.symm
      simp [hmap, hval, Finset.mem_erase, hc']
    | Repeat => simp [hmap, hval]
  · simp [hmap]

/-- An event the dedup step tracks for code `c` makes `c` held exactly when
its value is `Press`. -/
theorem mem_loopStep_pressed_tracked (ahr : Bool) (mapped pressed : Finset Nat)
    (e : KeyEvent) (c : Nat) (h : dedupTracks mapped c e = true) :
    (c ∈ (loopStep ahr mapped pressed (inputOfEvent e)).pressed ↔
      e.value = KeyValue.Press) := by
  simp only [dedupTracks, Bool.and_eq_true, Bool.or_eq_true, decide_eq_true_eq] at h
  obtain ⟨⟨hc, hmap⟩, hval⟩ := h
  subst hc
  rw [loopStep_inputOfEvent_pressed]
  cases hval with
  | inl hval =>
    by_cases hp : e.code ∈ pressed <;> simp [hmap, hval, hp]
  | inr hval =>
    simp [hmap, hval, Finset.mem_erase]

/-- C2 amended: for every sequence of successfully processed key events, a
code is in `PRESSED_KEYS` iff the most recent mapped `Press`-or-`Release`
event for it was a `Press` (codes with no such event keep their initial
membership).  Repeat-valued events and unmapped events never affect the
set, whatever the hardware-repeat setting. -/
theorem pressed_invariant_amended (ahr : Bool) (mapped init : Finset Nat)
    (events : List KeyEvent) (c : Nat) :
    c ∈ runEvents ahr mapped init events ↔ specHeld mapped init events c = true := by
  induction events using List.reverseRecOn with
  | nil => simp [runEvents, specHeld]
  | append_singleton l e ih =>
    have hrun : runEvents ahr mapped init (l ++ [e]) =
        (loopStep ahr mapped (runEvents ahr mapped init l) (inputOfEvent e)).pressed := by
      simp [runEvents, List.foldl_append]
    rw [hrun]
    by_cases ht : dedupTracks mapped c e = true
    · rw [mem_loopStep_pressed_tracked ahr mapped _ e c ht]
      have : specHeld mapped init (l ++ [e]) c = decide (e.value = KeyValue.Press) := by
        simp [specHeld, List.filter_append, ht, List.getLast?_concat]
      rw [this]
      simp
    · rw [mem_loopStep_pressed_untracked ahr mapped _ e c (by simpa using ht)]
      have : specHeld mapped init (l ++ [e]) c = specHeld mapped init l c := by
        simp [specHeld, List.filter_append, ht]
      rw [this]
      exact ih

/-- Downstream and state effect of a mapped `Press` on an already-held
code: sent as `Repeat`, set unchanged — iterated over a whole run of
presses. -/
theorem sentEvents_replicate_press_held (ahr : Bool) (mapped pressed : Finset Nat)
    (c : Nat) (m : Nat) (hmap : c ∈ mapped) (hp : c ∈ pressed) :
    sentEvents ahr mapped pressed (List.replicate m ⟨c, KeyValue.Press⟩) =
      List.replicate m ⟨c, KeyValue.Repeat⟩ ∧
    runEvents ahr mapped pressed (List.replicate m ⟨c, KeyValue.Press⟩) = pressed := by
  induction m with
  | zero => simp [sentEvents, runEvents]
  | succ k ih =>
    have hstep : loopStep ahr mapped pressed (inputOfEvent ⟨c, KeyValue.Press⟩) =
        ⟨pressed, none, some ⟨c, KeyValue.Repeat⟩, .next⟩ := by
      simp [loopStep, inputOfEvent, hmap, hp]
    constructor
    · rw [List.replicate_succ, sentEvents, hstep]
      rw [show List.replicate (k + 1) (⟨c, KeyValue.Repeat⟩ : KeyEvent) =
        ⟨c, KeyValue.Repeat⟩ :: List.replicate k ⟨c, KeyValue.Repeat⟩ from List.replicate_succ ..]
      simpa using ih.1
    · rw [List.replicate_succ, runEvents, List.foldl_cons, hstep]
      exact ih.2

/-- C3: a run of `n ≥ 1` `Press` events on a mapped code not currently
held sends the first downstream with value `Press` and every subsequent
one with value `Repeat` (never `Press`), while `PRESSED_KEYS` gains the
code at the first press and keeps it. -/
theorem press_sequence_dedup (ahr : Bool) (mapped pressed : Finset Nat)
    (c : Nat) (n : Nat) (hmap : c ∈ mapped) (hp : c ∉ pressed) (hn : 1 ≤ n) :
    sentEvents ahr mapped pressed (List.replicate n ⟨c, KeyValue.Press⟩) =
      ⟨c, KeyValue.Press⟩ :: List.replicate (n - 1) ⟨c, KeyValue.Repeat⟩ ∧
    runEvents ahr mapped pressed (List.replicate n ⟨c, KeyValue.Press⟩) =
      insert c pressed := by
  obtain ⟨k, rfl⟩ : ∃ k, n = k + 1 := ⟨n - 1, (Nat.succ_pred_eq_of_pos hn).symm⟩
  have hstep : loopStep ahr mapped pressed (inputOfEvent ⟨c, KeyValue.Press⟩) =
      ⟨insert c pressed, none, some ⟨c, KeyValue.Press⟩, .next⟩ := by
    simp [loopStep, inputOfEvent, hmap, hp]
  have hheld := sentEvents_replicate_press_held ahr mapped (insert c pressed) c k hmap
    (Finset.mem_insert_self c pressed)
  constructor
  · rw [List.replicate_succ, sentEvents, hstep]
    simpa using hheld.1
  · rw [List.replicate_succ, runEvents, List.foldl_cons, hstep]
    exact hheld.2

/-- Witness for `press_sequence_dedup`: two presses on mapped code `1`
from the empty pressed set yield downstream `Press` then `Repeat`. -/
theorem press_sequence_dedup_witness :
    sentEvents true {1} ∅ (List.replicate 2 ⟨1, KeyValue.Press⟩) =
      ⟨1, KeyValue.Press⟩ :: List.replicate 1 ⟨1, KeyValue.Repeat⟩ ∧
    runEvents true {1} ∅ (List.replicate 2 ⟨1, KeyValue.Press⟩) = insert 1 ∅ :=
  press_sequence_dedup true {1} ∅ 1 2 (by decide) (by decide) (by decide)

/-- Observable actions of the event loop, for stating temporal ordering
properties: a liveness probe (with its result), a device read attempt, the
`release_input` call, the settle delay after the first positive probe of
the waiting phase, a `regrab_input` call (with its result), and the
recovery signal (the `break true` out of the inner loop, logged at lines
43, 51, 66 and 87). -/
inductive Action
  | probe (ready : Bool)
  | readAct
  | releaseAct
  | settleAct
  | regrabAct (success : Bool)
  | recoverSignal
deriving DecidableEq, Fintype

/-- Actions performed by one inner-loop iteration: the probe always runs; a
read is attempted exactly when the probe was positive; a recovery signal is
emitted exactly when the iteration breaks out of the inner loop. -/
def iterTrace (inp : IterInput) (out : IterOutcome) : List Action :=
  Action.probe inp.sink_ready ::
    ((if inp.sink_ready then [Action.readAct] else []) ++
      (match out with
       | .brk _ => [Action.recoverSignal]
       | _ => []))

/-- How a whole run of the inner event-processing loop ends: `break` with
the recovery flag, an early error return, or the environment script being
exhausted while the loop is still running. -/
inductive InnerExit
  | brk (needs_recovery : Bool)
  | fatal (msg : String)
  | exhausted
deriving DecidableEq

/-- Result of running the inner loop on a script of environment responses. -/
structure InnerResult where
  trace : List Action
  pressed : Finset Nat
  exit : InnerExit
deriving DecidableEq

/-- The inner event-processing loop (source lines 40–113) run over a finite
script of environment responses, iterating `loopStep`. -/
def innerRun (ahr : Bool) (mapped : Finset Nat) :
    Finset Nat → List IterInput → InnerResult
  | pressed, [] => ⟨[], pressed, .exhausted⟩
  | pressed, inp :: rest =>
    match (loopStep ahr mapped pressed inp).outcome with
    | .next =>
      ⟨iterTrace inp .next ++
          (innerRun ahr mapped (loopStep ahr mapped pressed inp).pressed rest).trace,
        (innerRun ahr mapped (loopStep ahr mapped pressed inp).pressed rest).pressed,
        (innerRun ahr mapped (loopStep ahr mapped pressed inp).pressed rest).exit⟩
    | .brk b =>
      ⟨iterTrace inp (.brk b), (loopStep ahr mapped pressed inp).pressed, .brk b⟩
    | .fatal m =>
      ⟨iterTrace inp (.fatal m), (loopStep ahr mapped pressed inp).pressed, .fatal m⟩

/-- Result of the waiting phase (source lines 128–140). -/
structure WaitResult where
  trace : List Action
  found : Bool
deriving DecidableEq

/-- The waiting phase, fed a finite script of probe results: poll until the
first positive probe, then apply the settle delay and stop. -/
def waitRun : List Bool → WaitResult
  | [] => ⟨[], false⟩
  | b :: rest =>
    if b then ⟨[Action.probe true, Action.settleAct], true⟩
    else ⟨Action.probe false :: (waitRun rest).trace, (waitRun rest).found⟩

/-- Environment responses for one pass of the outer loop: the inner-loop
script, the waiting-phase probe results, and the `regrab_input` result. -/
structure OuterInput where
  iters : List IterInput
  wait_probes : List Bool
  regrab_ok : Bool
deriving DecidableEq

/-- How `event_loop` ends on a finite script: the clean `Ok(())` exit
(line 116), a terminating error, or the script running out while the loop
is still live. -/
inductive RunResult
  | ok
  | fatal (msg : String)
  | scriptEnded
deriving DecidableEq

/-- Result of running the outer loop on a finite script. -/
structure OuterResult where
  trace : List Action
  result : RunResult
deriving DecidableEq

/-- The error message of the `bail!` at line 145. -/
def regrabFailMsg : String := "failed to re-grab keyboard devices after DriverKit recovery"

/-- The outer recovery loop of `event_loop` (source lines 38–151): run the
inner loop; on `break b` with `b` false return `Ok`, otherwise release the
input devices, run the waiting phase, then regrab — failure of the regrab
is the fatal `bail!`, success re-enters the inner loop. -/
def outerRun (ahr : Bool) (mapped : Finset Nat) :
    Finset Nat → List OuterInput → OuterResult
  | _, [] => ⟨[], .scriptEnded⟩
  | pressed, oi :: rest =>
    match (innerRun ahr mapped pressed oi.iters).exit with
    | .fatal m => ⟨(innerRun ahr mapped pressed oi.iters).trace, .fatal m⟩
    | .exhausted => ⟨(innerRun ahr mapped pressed oi.iters).trace, .scriptEnded⟩
    | .brk needs_recovery =>
      if needs_recovery = false then
        ⟨(innerRun ahr mapped pressed oi.iters).trace, .ok⟩
      else
        if (waitRun oi.wait_probes).found then
          if oi.regrab_ok then
            ⟨(innerRun ahr mapped pressed oi.iters).trace ++
                Action.releaseAct :: ((waitRun oi.wait_probes).trace ++
                  Action.regrabAct true ::
                    (outerRun ahr mapped (innerRun ahr mapped pressed oi.iters).pressed
                      rest).trace),
              (outerRun ahr mapped (innerRun ahr mapped pressed oi.iters).pressed
                rest).result⟩
          else
            ⟨(innerRun ahr mapped pressed oi.iters).trace ++
                Action.releaseAct :: ((waitRun oi.wait_probes).trace ++
                  [Action.regrabAct false]),
              .fatal regrabFailMsg⟩
        else
          ⟨(innerRun ahr mapped pressed oi.iters).trace ++
              Action.releaseAct :: (waitRun oi.wait_probes).trace,
            .scriptEnded⟩

/-- No `break` out of the inner loop ever carries `false`: every break site
at lines 44, 52, 68 and 90 breaks with `true`. -/
theorem loopStep_not_brk_false (ahr : Bool) (mapped pressed : Finset Nat)
    (inp : IterInput) :
    (loopStep ahr mapped pressed inp).outcome ≠ IterOutcome.brk false := by
  rcases inp with ⟨sr, rd, wr, sd⟩
  cases sr with
  | false => simp [loopStep]
  | true =>
    cases rd with
    | err k =>
      by_cases hk : k = IOErrorKind.unexpectedEof <;> simp [loopStep, hk]
    | ok ev =>
      cases hconv : ev.conv with
      | none =>
        cases wr with
        | ok => simp [loopStep, hconv]
        | err k =>
          by_cases hk : k = IOErrorKind.notConnected <;> simp [loopStep, hconv, hk]
      | some ke =>
        by_cases hdrop : ke.value = KeyValue.Repeat ∧ ahr = false
        · simp [loopStep, hconv, hdrop]
        · by_cases hmap : ke.code ∈ mapped
          · cases sd <;> simp [loopStep, hconv, hdrop, hmap]
          · cases wr with
            | ok => simp [loopStep, hconv, hdrop, hmap]
            | err k =>
              by_cases hk : k = IOErrorKind.notConnected <;>
                simp [loopStep, hconv, hdrop, hmap, hk]

/-- The inner loop never exits with `break false`. -/
theorem innerRun_exit_not_brk_false (ahr : Bool) (mapped : Finset Nat)
    (l : List IterInput) :
    ∀ pressed : Finset Nat,
      (innerRun ahr mapped pressed l).exit ≠ InnerExit.brk false := by
  induction l with
  | nil =>
    intro pressed
    simp [innerRun]
  | cons inp rest ih =>
    intro pressed
    cases hout : (loopStep ahr mapped pressed inp).outcome with
    | next =>
      simpa [innerRun, hout] using ih (loopStep ahr mapped pressed inp).pressed
    | brk b =>
      cases b with
      | false => exact absurd hout (loopStep_not_brk_false ahr mapped pressed inp)
      | true => simp [innerRun, hout]
    | fatal m => simp [innerRun, hout]

/-- C9: `event_loop` never terminates successfully.  On every finite
script the outer loop either is still running (script exhausted) or has
returned a terminating error; the clean-exit branch returning `Ok(())` at
line 116 is unreachable, because every break out of the inner loop carries
`true`. -/
theorem event_loop_never_ok (ahr : Bool) (mapped : Finset Nat)
    (script : List OuterInput) :
    ∀ pressed : Finset Nat,
      (outerRun ahr mapped pressed script).result = RunResult.scriptEnded ∨
        ∃ m, (outerRun ahr mapped pressed script).result = RunResult.fatal m := by
  induction script with
  | nil =>
    intro pressed
    left
    simp [outerRun]
  | cons oi rest ih =>
    intro pressed
    cases hexit : (innerRun ahr mapped pressed oi.iters).exit with
    | fatal m =>
      right
      exact ⟨m, by simp [outerRun, hexit]⟩
    | exhausted =>
      left
      simp [outerRun, hexit]
    | brk b =>
      cases b with
      | false => exact absurd hexit (innerRun_exit_not_brk_false ahr mapped oi.iters pressed)
      | true =>
        by_cases hfound : (waitRun oi.wait_probes).found = true
        · by_cases hre : oi.regrab_ok = true
          · simpa [outerRun, hexit, hfound, hre] using
              ih (innerRun ahr mapped pressed oi.iters).pressed
          · right
            exact ⟨regrabFailMsg, by simp [outerRun, hexit, hfound, hre]⟩
        · left
          simp [outerRun, hexit, hfound]

/-- Regrab actions occur only in the regrab step of the outer loop, never
inside an inner-loop iteration's actions. -/
theorem regrabAct_not_mem_iterTrace (inp : IterInput) (out : IterOutcome) (b : Bool) :
    Action.regrabAct b ∉ iterTrace inp out := by
  cases hsr : inp.sink_ready <;> cases out <;> simp [iterTrace, hsr]

/-- Regrab actions never occur in an inner-loop trace. -/
theorem regrabAct_not_mem_innerTrace (ahr : Bool) (mapped : Finset Nat)
    (l : List IterInput) :
    ∀ (pressed : Finset Nat) (b : Bool),
      Action.regrabAct b ∉ (innerRun ahr mapped pressed l).trace := by
  induction l with
  | nil =>
    intro pressed b
    simp [innerRun]
  | cons inp rest ih =>
    intro pressed b
    cases hout : (loopStep ahr mapped pressed inp).outcome with
    | next =>
      simp only [innerRun, hout, List.mem_append]
      rintro (hm | hm)
      · exact regrabAct_not_mem_iterTrace inp .next b hm
      · exact ih (loopStep ahr mapped pressed inp).pressed b hm
    | brk b2 =>
      simpa [innerRun, hout] using regrabAct_not_mem_iterTrace inp (.brk b2) b
    | fatal m =>
      simpa [innerRun, hout] using regrabAct_not_mem_iterTrace inp (.fatal m) b

/-- Regrab actions never occur in a waiting-phase trace. -/
theorem regrabAct_not_mem_waitTrace (ps : List Bool) (b : Bool) :
    Action.regrabAct b ∉ (waitRun ps).trace := by
  induction ps with
  | nil => simp [waitRun]
  | cons p rest ih =>
    cases p with
    | true => simp [waitRun]
    | false => simpa [waitRun] using ih

/-- Splitting lemma: if a concatenation is split at an occurrence of `x`
that cannot lie in the left part, the split lies in the right part. -/
theorem append_cons_split {α : Type} (B suf : List α) (x : α) :
    ∀ A pre : List α, x ∉ A → A ++ B = pre ++ x :: suf →
      ∃ pre2, B = pre2 ++ x :: suf := by
  intro A
  induction A with
  | nil =>
    intro pre hx h
    exact ⟨pre, by simpa using h⟩
  | cons a A ih =>
    intro pre hx h
    cases pre with
    | nil =>
      simp only [List.nil_append, List.cons_append, List.cons.injEq] at h
      exact absurd (h.1 ▸ List.mem_cons_self a A) hx
    | cons p pre =>
      simp only [List.cons_append, List.cons.injEq] at h
      exact ih pre (fun hm => hx (List.mem_cons_of_mem a hm)) h.2

/-- Splitting lemma: a list ending in its only occurrence of `x`, split at
`x`, has nothing after the split. -/
theorem append_singleton_split {α : Type} (A : List α) (pre suf : List α) (x : α)
    (hx : x ∉ A) (h : A ++ [x] = pre ++ x :: suf) : suf = [] := by
  obtain ⟨pre2, h2⟩ := append_cons_split [x] suf x A pre hx h
  have hlen := congrArg List.length h2
  simp only [List.length_append, List.length_cons, List.length_nil] at hlen
  have hsuf : suf.length = 0 := by omega
  exact List.eq_nil_of_length_eq_zero hsuf

/-- C7: if `regrab_input` fails after a completed waiting phase, the loop
terminates right there with the fatal descriptive error of line 145: a
failed regrab is the last action of the whole execution (nothing follows
it — no retry, no re-entry into the capturing loop), and the run's result
is that error. -/
theorem regrab_failure_fatal (ahr : Bool) (mapped : Finset Nat)
    (script : List OuterInput) :
    ∀ (pressed : Finset Nat) (pre suf : List Action),
      (outerRun ahr mapped pressed script).trace =
        pre ++ Action.regrabAct false :: suf →
      suf = [] ∧
        (outerRun ahr mapped pressed script).result = RunResult.fatal regrabFailMsg := by
  induction script with
  | nil =>
    intro pressed pre suf h
    exact absurd h.symm (by simp [outerRun])
  | cons oi rest ih =>
    intro pressed pre suf h
    cases hexit : (innerRun ahr mapped pressed oi.iters).exit with
    | fatal m =>
      exfalso
      rw [show (outerRun ahr mapped pressed (oi :: rest)).trace =
          (innerRun ahr mapped pressed oi.iters).trace by simp [outerRun, hexit]] at h
      exact regrabAct_not_mem_innerTrace ahr mapped oi.iters pressed false
        (h ▸ List.mem_append_right pre (List.mem_cons_self _ suf))
    | exhausted =>
      exfalso
      rw [show (outerRun ahr mapped pressed (oi :: rest)).trace =
          (innerRun ahr mapped pressed oi.iters).trace by simp [outerRun, hexit]] at h
      exact regrabAct_not_mem_innerTrace ahr mapped oi.iters pressed false
        (h ▸ List.mem_append_right pre (List.mem_cons_self _ suf))
    | brk b =>
      cases b with
      | false => exact absurd hexit (innerRun_exit_not_brk_false ahr mapped oi.iters pressed)
      | true =>
        by_cases hfound : (waitRun oi.wait_probes).found = true
        · by_cases hre : oi.regrab_ok = true
          · rw [show (outerRun ahr mapped pressed (oi :: rest)).trace =
                ((innerRun ahr mapped pressed oi.iters).trace ++
                  Action.releaseAct :: ((waitRun oi.wait_probes).trace ++
                    [Action.regrabAct true])) ++
                  (outerRun ahr mapped (innerRun ahr mapped pressed oi.iters).pressed
                    rest).trace by
              simp [outerRun, hexit, hfound, hre]] at h
            have hnot : Action.regrabAct false ∉
                (innerRun ahr mapped pressed oi.iters).trace ++
                  Action.releaseAct :: ((waitRun oi.wait_probes).trace ++
                    [Action.regrabAct true]) := by
              intro hmem
              simp only [List.mem_append, List.mem_cons, List.mem_singleton] at hmem
              rcases hmem with hm | hm | hm | hm
              · exact regrabAct_not_mem_innerTrace ahr mapped oi.iters pressed false hm
              · exact absurd hm (by decide)
              · exact regrabAct_not_mem_waitTrace oi.wait_probes false hm
              · exact absurd hm (by decide)
            obtain ⟨pre2, h2⟩ := append_cons_split _ suf _ _ pre hnot h
            have := ih (innerRun ahr mapped pressed oi.iters).pressed pre2 suf h2
            refine ⟨this.1, ?_⟩
            rw [show (outerRun ahr mapped pressed (oi :: rest)).result =
                (outerRun ahr mapped (innerRun ahr mapped pressed oi.iters).pressed
                  rest).result by simp [outerRun, hexit, hfound, hre]]
            exact this.2
          · refine ⟨?_, by simp [outerRun, hexit, hfound, hre]⟩
            rw [show (outerRun ahr mapped pressed (oi :: rest)).trace =
                ((innerRun ahr mapped pressed oi.iters).trace ++
                  Action.releaseAct :: (waitRun oi.wait_probes).trace) ++
                  [Action.regrabAct false] by
              simp [outerRun, hexit, hfound, hre]] at h
            have hnot : Action.regrabAct false ∉
                (innerRun ahr mapped pressed oi.iters).trace ++
                  Action.releaseAct :: (waitRun oi.wait_probes).trace := by
              simp only [List.mem_append, List.mem_cons]
              rintro (hm | hm | hm)
              · exact regrabAct_not_mem_innerTrace ahr mapped oi.iters pressed false hm
              · exact absurd hm (by decide)
              · exact regrabAct_not_mem_waitTrace oi.wait_probes false hm
            exact append_singleton_split _ pre suf _ hnot h
        · exfalso
          rw [show (outerRun ahr mapped pressed (oi :: rest)).trace =
              (innerRun ahr mapped pressed oi.iters).trace ++
                Action.releaseAct :: (waitRun oi.wait_probes).trace by
            simp [outerRun, hexit, hfound]] at h
          have hmem : Action.regrabAct false ∈
              (innerRun ahr mapped pressed oi.iters).trace ++
                Action.releaseAct :: (waitRun oi.wait_probes).trace :=
            h ▸ List.mem_append_right pre (List.mem_cons_self _ suf)
          simp only [List.mem_append, List.mem_cons] at hmem
          rcases hmem with hm | hm | hm
          · exact regrabAct_not_mem_innerTrace ahr mapped oi.iters pressed false hm
          · exact absurd hm (by decide)
          · exact regrabAct_not_mem_waitTrace oi.wait_probes false hm

/-- Witness for `regrab_failure_fatal` at a concrete script: one probe
failure triggers recovery, the sink recovers, and the regrab fails. -/
theorem regrab_failure_fatal_witness :
    ([] : List Action) = [] ∧
      (outerRun true {1} ∅
          [⟨[⟨false, .ok ⟨0, none⟩, .ok, .ok⟩], [true], false⟩]).result =
        RunResult.fatal regrabFailMsg :=
  regrab_failure_fatal true {1} [⟨[⟨false, .ok ⟨0, none⟩, .ok, .ok⟩], [true], false⟩] ∅
    [Action.probe false, Action.recoverSignal, Action.releaseAct,
      Action.probe true, Action.settleAct] [] (by decide)

/-- States of a monitor automaton checking the recovery ordering: after a
recovery signal, no read may occur until a release, then a positive probe,
then the settle delay, then a successful regrab have been observed, in
that order. -/
inductive Phase
  | cap
  | needRelease
  | needProbe
  | needSettle
  | needRegrab
deriving DecidableEq, Fintype

/-- One transition of the recovery-ordering monitor.  `none` means the
trace is rejected: a read occurred while a step of the recovery sequence
was still owed. -/
def monStep : Phase → Action → Option Phase
  | .cap, .recoverSignal => some .needRelease
  | .cap, _ => some .cap
  | .needRelease, .readAct => none
  | .needRelease, .recoverSignal => some .needRelease
  | .needRelease, .releaseAct => some .needProbe
  | .needRelease, _ => some .needRelease
  | .needProbe, .readAct => none
  | .needProbe, .recoverSignal => some .needRelease
  | .needProbe, .probe true => some .needSettle
  | .needProbe, _ => some .needProbe
  | .needSettle, .readAct => none
  | .needSettle, .recoverSignal => some .needRelease
  | .needSettle, .settleAct => some .needRegrab
  | .needSettle, _ => some .needSettle
  | .needRegrab, .readAct => none
  | .needRegrab, .recoverSignal => some .needRelease
  | .needRegrab, .regrabAct true => some .cap
  | .needRegrab, _ => some .needRegrab

/-- Run the monitor over a trace. -/
def runMon : Phase → List Action → Option Phase
  | s, [] => some s
  | s, a :: rest =>
    match monStep s a with
    | none => none
    | some s2 => runMon s2 rest

/-- The suffix of the release / probe-true / settle / regrab-true sequence
still owed in each monitor state. -/
def needSeq : Phase → List Action
  | .cap => []
  | .needRelease =>
    [Action.releaseAct, Action.probe true, Action.settleAct, Action.regrabAct true]
  | .needProbe => [Action.probe true, Action.settleAct, Action.regrabAct true]
  | .needSettle => [Action.settleAct, Action.regrabAct true]
  | .needRegrab => [Action.regrabAct true]

/-- Appending traces composes monitor runs. -/
theorem runMon_append (l1 l2 : List Action) :
    ∀ s : Phase, runMon s (l1 ++ l2) =
      match runMon s l1 with
      | none => none
      | some s2 => runMon s2 l2 := by
  induction l1 with
  | nil => intro s; rfl
  | cons a l1 ih =>
    intro s
    cases hstep : monStep s a with
    | none => simp [runMon, hstep]
    | some s2 => simp [runMon, hstep, ih s2]

/-- `runMon_append` specialized to a known successful left run. -/
theorem runMon_append_some (l1 l2 : List Action) (s s1 : Phase)
    (h : runMon s l1 = some s1) : runMon s (l1 ++ l2) = runMon s1 l2 := by
  rw [runMon_append, h]

/-- Unfolding a run over a cons when the first transition is known. -/
theorem runMon_some_cons (s s2 : Phase) (a : Action) (rest : List Action)
    (h : monStep s a = some s2) : runMon s (a :: rest) = runMon s2 rest := by
  simp [runMon, h]

/-- A recovery signal always puts the monitor in its initial pending
state. -/
theorem monStep_recoverSignal (s : Phase) :
    monStep s Action.recoverSignal = some Phase.needRelease := by
  cases s <;> rfl

/-- In a pending state, a read is rejected. -/
theorem monStep_readAct (s : Phase) (h : s ≠ Phase.cap) :
    monStep s Action.readAct = none := by
  cases s
  · exact absurd rfl h
  all_goals rfl

/-- Every accepted transition discharges the owed sequence in order: what
state `s` owes is contained, in order, in the consumed action followed by
what the successor state owes. -/
theorem needSeq_step :
    ∀ (s : Phase) (a : Action) (s2 : Phase), monStep s a = some s2 →
      (needSeq s).Sublist (a :: needSeq s2) := by decide

/-- The only way back to the capturing state from a pending state is to
consume the last owed action. -/
theorem needSeq_step_cap :
    ∀ (s : Phase) (a : Action), s ≠ Phase.cap → monStep s a = some Phase.cap →
      needSeq s = [a] := by decide

/-- Core ordering argument: if the monitor, started in a pending state,
accepts a trace that reaches a read, then the pending state's owed
sequence occurs in order before that read. -/
theorem mon_order :
    ∀ (mid post : List Action) (s : Phase), s ≠ Phase.cap →
      (runMon s (mid ++ Action.readAct :: post)).isSome = true →
      (needSeq s).Sublist mid := by
  intro mid
  induction mid with
  | nil =>
    intro post s hs hrun
    rw [List.nil_append] at hrun
    rw [show runMon s (Action.readAct :: post) = none by
      simp [runMon, monStep_readAct s hs]] at hrun
    exact absurd hrun (by simp)
  | cons a mid ih =>
    intro post s hs hrun
    rw [List.cons_append] at hrun
    cases hstep : monStep s a with
    | none =>
      rw [show runMon s (a :: (mid ++ Action.readAct :: post)) = none by
        simp [runMon, hstep]] at hrun
      exact absurd hrun (by simp)
    | some s2 =>
      rw [runMon_some_cons s s2 a _ hstep] at hrun
      by_cases hs2 : s2 = Phase.cap
      · subst hs2
        rw [needSeq_step_cap s a hs hstep]
        exact List.cons_sublist_cons.mpr (List.nil_sublist mid)
      · exact (needSeq_step s a s2 hstep).trans
          (List.cons_sublist_cons.mpr (ih post s2 hs2 hrun))

/-- The monitor accepts each iteration's actions, ending in the initial
pending state exactly when the iteration signalled recovery. -/
theorem runMon_cap_iterTrace (inp : IterInput) (out : IterOutcome) :
    runMon Phase.cap (iterTrace inp out) =
      some (match out with
            | .brk _ => Phase.needRelease
            | _ => Phase.cap) := by
  rcases inp with ⟨sr, rd, wr, sd⟩
  cases sr <;> cases out <;> rfl

/-- The monitor accepts every inner-loop trace, ending pending exactly when
the inner loop broke out for recovery. -/
theorem runMon_cap_innerTrace (ahr : Bool) (mapped : Finset Nat) (l : List IterInput) :
    ∀ pressed : Finset Nat,
      runMon Phase.cap (innerRun ahr mapped pressed l).trace =
        some (match (innerRun ahr mapped pressed l).exit with
              | .brk _ => Phase.needRelease
              | _ => Phase.cap) := by
  induction l with
  | nil => intro pressed; rfl
  | cons inp rest ih =>
    intro pressed
    cases hout : (loopStep ahr mapped pressed inp).outcome with
    | next =>
      simp only [innerRun, hout]
      rw [runMon_append_some _ _ _ Phase.cap (by rw [runMon_cap_iterTrace])]
      exact ih _
    | brk b =>
      simp only [innerRun, hout]
      rw [runMon_cap_iterTrace]
    | fatal m =>
      simp only [innerRun, hout]
      rw [runMon_cap_iterTrace]

/-- The monitor, in the probe-pending state, accepts every waiting-phase
trace: all failed polls keep it pending, and a successful poll followed by
the settle delay leaves only the regrab owed. -/
theorem runMon_needProbe_waitTrace (ps : List Bool) :
    runMon Phase.needProbe (waitRun ps).trace =
      some (if (waitRun ps).found then Phase.needRegrab else Phase.needProbe) := by
  induction ps with
  | nil => rfl
  | cons b rest ih =>
    cases b with
    | true => rfl
    | false => simpa [waitRun, runMon, monStep] using ih

/-- The monitor accepts every trace the outer loop can produce. -/
theorem mon_accepts (ahr : Bool) (mapped : Finset Nat) (script : List OuterInput) :
    ∀ pressed : Finset Nat,
      ∃ s, runMon Phase.cap (outerRun ahr mapped pressed script).trace = some s := by
  induction script with
  | nil => intro pressed; exact ⟨Phase.cap, rfl⟩
  | cons oi rest ih =>
    intro pressed
    cases hexit : (innerRun ahr mapped pressed oi.iters).exit with
    | fatal m =>
      refine ⟨Phase.cap, ?_⟩
      simp only [outerRun, hexit]
      have hin := runMon_cap_innerTrace ahr mapped oi.iters pressed
      rw [hexit] at hin
      exact hin
    | exhausted =>
      refine ⟨Phase.cap, ?_⟩
      simp only [outerRun, hexit]
      have hin := runMon_cap_innerTrace ahr mapped oi.iters pressed
      rw [hexit] at hin
      exact hin
    | brk b =>
      have hin : runMon Phase.cap (innerRun ahr mapped pressed oi.iters).trace =
          some Phase.needRelease := by
        have hin0 := runMon_cap_innerTrace ahr mapped oi.iters pressed
        rw [hexit] at hin0
        exact hin0
      cases b with
      | false => exact absurd hexit (innerRun_exit_not_brk_false ahr mapped oi.iters pressed)
      | true =>
        by_cases hfound : (waitRun oi.wait_probes).found = true
        · by_cases hre : oi.regrab_ok = true
          · obtain ⟨s, hs⟩ := ih (innerRun ahr mapped pressed oi.iters).pressed
            refine ⟨s, ?_⟩
            rw [show (outerRun ahr mapped pressed (oi :: rest)).trace =
                (innerRun ahr mapped pressed oi.iters).trace ++
                  Action.releaseAct :: ((waitRun oi.wait_probes).trace ++
                    Action.regrabAct true ::
                      (outerRun ahr mapped (innerRun ahr mapped pressed oi.iters).pressed
                        rest).trace) by
              simp [outerRun, hexit, hfound, hre]]
            rw [runMon_append_some _ _ _ _ hin]
            rw [runMon_some_cons Phase.needRelease Phase.needProbe Action.releaseAct _
              (by rfl)]
            rw [runMon_append_some _ _ _ Phase.needRegrab
              (by simp [runMon_needProbe_waitTrace, hfound])]
            rw [runMon_some_cons Phase.needRegrab Phase.cap (Action.regrabAct true) _
              (by rfl)]
            exact hs
          · refine ⟨Phase.needRegrab, ?_⟩
            rw [show (outerRun ahr mapped pressed (oi :: rest)).trace =
                (innerRun ahr mapped pressed oi.iters).trace ++
                  Action.releaseAct :: ((waitRun oi.wait_probes).trace ++
                    [Action.regrabAct false]) by
              simp [outerRun, hexit, hfound, hre]]
            rw [runMon_append_some _ _ _ _ hin]
            rw [runMon_some_cons Phase.needRelease Phase.needProbe Action.releaseAct _
              (by rfl)]
            rw [runMon_append_some _ _ _ Phase.needRegrab
              (by simp [runMon_needProbe_waitTrace, hfound])]
            rfl
        · refine ⟨Phase.needProbe, ?_⟩
          rw [show (outerRun ahr mapped pressed (oi :: rest)).trace =
              (innerRun ahr mapped pressed oi.iters).trace ++
                Action.releaseAct :: (waitRun oi.wait_probes).trace by
            simp [outerRun, hexit, hfound]]
          rw [runMon_append_some _ _ _ _ hin]
          rw [runMon_some_cons Phase.needRelease Phase.needProbe Action.releaseAct _
            (by rfl)]
          simp [runMon_needProbe_waitTrace, hfound]

/-- C4: in every execution trace of the loop, between a recovery signal
(the `break true` raised by a failed probe, a read EOF, or a NotConnected
write — see `recovery_fatal_classification`) and any later device read,
there occur, in order: the `release_input` call, a positive liveness
probe, the settle delay, and a successful `regrab_input`.  In particular
release precedes any further read, and no read happens until the probe has
returned true, the settle delay has elapsed and the regrab succeeded. -/
theorem recovery_read_order (ahr : Bool) (mapped pressed : Finset Nat)
    (script : List OuterInput) (pre mid post : List Action)
    (h : (outerRun ahr mapped pressed script).trace =
      pre ++ Action.recoverSignal :: (mid ++ Action.readAct :: post)) :
    [Action.releaseAct, Action.probe true, Action.settleAct,
      Action.regrabAct true].Sublist mid := by
  obtain ⟨s, hs⟩ := mon_accepts ahr mapped script pressed
  rw [h] at hs
  rw [runMon_append] at hs
  cases hpre : runMon Phase.cap pre with
  | none =>
    rw [hpre] at hs
    exact absurd hs (by simp)
  | some s1 =>
    rw [hpre] at hs
    have hs2 : runMon Phase.needRelease (mid ++ Action.readAct :: post) = some s := by
      rw [← runMon_some_cons s1 Phase.needRelease Action.recoverSignal _
        (monStep_recoverSignal s1)]
      exact hs
    have hsub := mon_order mid post Phase.needRelease (by simp)
      (by rw [hs2]; rfl)
    simpa [needSeq] using hsub

/-- Witness for `recovery_read_order` at a concrete script: a probe
failure triggers recovery; after one failed and one successful poll, the
settle delay and a successful regrab, a mapped press is read again. -/
theorem recovery_read_order_witness :
    [Action.releaseAct, Action.probe true, Action.settleAct,
      Action.regrabAct true].Sublist
      [Action.releaseAct, Action.probe false, Action.probe true, Action.settleAct,
        Action.regrabAct true, Action.probe true] :=
  recovery_read_order true {1} ∅
    [⟨[⟨false, .ok ⟨0, none⟩, .ok, .ok⟩], [false, true], true⟩,
      ⟨[⟨true, .ok ⟨0, some ⟨1, .Press⟩⟩, .ok, .ok⟩], [], true⟩]
    [Action.probe false]
    [Action.releaseAct, Action.probe false, Action.probe true, Action.settleAct,
      Action.regrabAct true, Action.probe true]
    [] (by decide)

end Kanata
